import Mathlib

/-!
Shallow embedding of the caching + rate-limiting request gate of
`TranslateDiscord.py` (Silly-Development/premadebots).

Python dictionaries are modelled as association lists: `OrderedDict`
keeps insertion order (assignment to an existing key keeps its position,
`move_to_end` moves the pair to the back, `next(iter(d))` is the head),
and a plain `dict` is modelled the same way, its order unused.
`time.time()` is modelled as an explicit rational-valued `now` argument.
-/

set_option linter.unusedSectionVars false
set_option linter.unnecessarySimpa false
set_option linter.unusedVariables false

namespace PremadeBots

variable {K V : Type} [DecidableEq K]

/-- First value bound to `key` in an association list (`d[key]` / `key in d`). -/
def alookup : List (K × V) → K → Option V
  | [], _ => none
  | (k, v) :: rest, key => if k = key then some v else alookup rest key

/-- Remove the first pair bound to `key` (`d.pop(key)` on a duplicate-free dict). -/
def aremove : List (K × V) → K → List (K × V)
  | [], _ => []
  | (k, v) :: rest, key => if k = key then rest else (k, v) :: aremove rest key

/-- Dictionary assignment `d[key] = v`: replace in place when the key is
present (an `OrderedDict` keeps the position of an existing key), append at
the back otherwise. -/
def odSet : List (K × V) → K → V → List (K × V)
  | [], key, v => [(key, v)]
  | (k, w) :: rest, key, v =>
      if k = key then (key, v) :: rest else (k, w) :: odSet rest key v

/-- Erase the first occurrence of `key` from a key list. -/
def lerase : List K → K → List K
  | [], _ => []
  | k :: rest, key => if k = key then rest else k :: lerase rest key

/-- The key sequence of an association list. -/
def keysOf (l : List (K × V)) : List K := l.map Prod.fst

/-- Python exceptions that the cache code can raise. -/
inductive PyError : Type
  | stopIteration : PyError
  | keyError : PyError
deriving DecidableEq, Repr

/-- Python `d.pop(key)` with no default: `KeyError` when the key is absent. -/
def dictPop (l : List (K × V)) (key : K) : Except PyError (List (K × V)) :=
  if key ∈ keysOf l then .ok (aremove l key) else .error .keyError

/-- State of a `PerformanceCache` instance: `cache` is the `OrderedDict` (front = oldest
in recency order), `timestamps` the companion `dict` of insertion times. -/
structure PerformanceCache (K V : Type) where
  cache : List (K × V)
  timestamps : List (K × ℚ)
  max_size : ℕ
  ttl : ℚ
deriving Repr

/-- Constructor `PerformanceCache.__init__`. -/
def PerformanceCache.empty (K V : Type) (max_size : ℕ) (ttl : ℚ) :
    PerformanceCache K V :=
  ⟨[], [], max_size, ttl⟩

/-- The `expired_keys` list of `PerformanceCache._cleanup_expired`: keys
whose timestamp is strictly older than `ttl` at `current_time`. -/
def expiredKeys (c : PerformanceCache K V) (now : ℚ) : List K :=
  keysOf (c.timestamps.filter fun p => now - p.2 > c.ttl)

/-- Method `PerformanceCache._cleanup_expired`: pop every expired key from both
dicts (`pop(key, None)`, so no exception). -/
def cleanup_expired (c : PerformanceCache K V) (now : ℚ) : PerformanceCache K V :=
  { c with
    cache := c.cache.filter fun p => !(p.1 ∈ expiredKeys c now)
    timestamps := c.timestamps.filter fun p => !(p.1 ∈ expiredKeys c now) }

/-- Method `PerformanceCache.get`: purge expired entries, then on a hit move the
pair to the back (`move_to_end`, most-recently-used) and return its value. -/
def PerformanceCache.get (c : PerformanceCache K V) (key : K) (now : ℚ) :
    Option V × PerformanceCache K V :=
  let c := cleanup_expired c now
  match alookup c.cache key with
  | some v => (some v, { c with cache := aremove c.cache key ++ [(key, v)] })
  | none => (none, c)

/-- Method `PerformanceCache.set`: purge expired entries; when the store is at or
above `max_size`, evict the front pair (`next(iter(self.cache))`) and pop its
timestamp with no default; then assign `cache[key] = value` and
`timestamps[key] = now`.  `next(iter(...))` on an empty dict raises
`StopIteration`, and the unguarded timestamp pop can raise `KeyError`. -/
def PerformanceCache.set (c : PerformanceCache K V) (key : K) (value : V)
    (now : ℚ) : Except PyError (PerformanceCache K V) :=
  let c := cleanup_expired c now
  let step : Except PyError (PerformanceCache K V) :=
    if c.cache.length ≥ c.max_size then
      match c.cache with
      | [] => .error .stopIteration
      | (k0, _) :: rest =>
        match dictPop c.timestamps k0 with
        | .ok ts => .ok { c with cache := rest, timestamps := ts }
        | .error e => .error e
    else .ok c
  match step with
  | .ok c => .ok { c with
      cache := odSet c.cache key value
      timestamps := odSet c.timestamps key now }
  | .error e => .error e

/-- State of a `RateLimiter` instance: `requests` is the `defaultdict(list)` mapping a user
id to the list of its request timestamps. -/
structure RateLimiter where
  max_requests : ℕ
  window : ℚ
  requests : List (ℕ × List ℚ)
deriving Repr, DecidableEq

/-- Constructor `RateLimiter.__init__`. -/
def RateLimiter.empty (max_requests : ℕ) (window : ℚ) : RateLimiter :=
  ⟨max_requests, window, []⟩

/-- Read `d[key]` on a `defaultdict(list)`: a missing key is inserted with an
empty list as a side effect of the read. -/
def ddGet (l : List (K × List ℚ)) (key : K) : List ℚ × List (K × List ℚ) :=
  match alookup l key with
  | some v => (v, l)
  | none => ([], l ++ [(key, [])])

/-- Method `RateLimiter.is_allowed`: read the user's history (a `defaultdict` read,
so a fresh user is inserted), keep only timestamps with `now - t < window`,
store the pruned list back, and report whether its length is strictly below
`max_requests`.  No timestamp is appended. -/
def RateLimiter.is_allowed (r : RateLimiter) (user_id : ℕ) (now : ℚ) :
    Bool × RateLimiter :=
  let gr := ddGet r.requests user_id
  let pruned := gr.1.filter fun t => now - t < r.window
  let reqs := odSet gr.2 user_id pruned
  (decide (pruned.length < r.max_requests), { r with requests := reqs })

/-- Method `RateLimiter.add_request`: append `now` to the user's history. -/
def RateLimiter.add_request (r : RateLimiter) (user_id : ℕ) (now : ℚ) :
    RateLimiter :=
  let gr := ddGet r.requests user_id
  { r with requests := odSet gr.2 user_id (gr.1 ++ [now]) }

/-- The characters stripped by Python's `str.strip()` (ASCII fragment). -/
def pyIsSpace (c : Char) : Bool :=
  c = ' ' || c = '\t' || c = '\n' || c = '\r' || c.toNat = 11 || c.toNat = 12

/-- Python `str.strip()`: drop leading and trailing whitespace. -/
def pyStrip (s : List Char) : List Char :=
  ((s.dropWhile pyIsSpace).reverse.dropWhile pyIsSpace).reverse

/-- Byte count of one character under UTF-8 (`len(c.encode('utf-8'))`). -/
def charUtf8Size (c : Char) : ℕ :=
  if c.toNat ≤ 0x7F then 1
  else if c.toNat ≤ 0x7FF then 2
  else if c.toNat ≤ 0xFFFF then 3
  else 4

/-- Python `len(text.encode('utf-8'))`. -/
def utf8Len (s : List Char) : ℕ :=
  (s.map charUtf8Size).sum

/-- Python `str.lower()` (ASCII fragment, as `Char.toLower`). -/
def pyLower (s : List Char) : List Char :=
  s.map Char.toLower

/-- Python `str.isalnum()` (ASCII fragment): nonempty and every character
alphanumeric. -/
def pyIsAlnum (s : List Char) : Bool :=
  !s.isEmpty && s.all fun c => c.isAlpha || c.isDigit

/-- Method `InputValidator.validate_text`: returns `(ok, error message)`. -/
def validate_text (text : List Char) : Bool × Option String :=
  if text.isEmpty || (pyStrip text).isEmpty then
    (false, some "Text cannot be empty")
  else if text.length > 4000 then
    (false, some "Text is too long (maximum 4000 characters)")
  else if utf8Len text > 8000 then
    (false, some "Text is too large in bytes")
  else (true, none)

/-- Result of `InputValidator.validate_language_code`: `(True, processed)`
or `(False, message)`. -/
inductive LangResult : Type
  | ok : List Char → LangResult
  | err : String → LangResult
deriving DecidableEq, Repr

/-- Method `InputValidator.validate_language_code`: reject empty or overlong codes,
then strip + lower-case, then reject anything that is not alphanumeric once
`-` and `_` are removed. -/
def validate_language_code (lang_code : List Char) : LangResult :=
  if lang_code.isEmpty || (pyStrip lang_code).isEmpty then
    .err "Language code cannot be empty"
  else if lang_code.length > 10 then
    .err "Invalid language code format"
  else
    let processed := pyLower (pyStrip lang_code)
    if !pyIsAlnum ((processed.filter fun c => c ≠ '-').filter fun c => c ≠ '_') then
      .err "Language code contains invalid characters"
    else .ok processed

/-- Mutable state of a `TranslateBot` instance, as touched by
`translate_text`: the `PerformanceCache` (keys and values are character
lists) and the `RateLimiter`. -/
structure BotState where
  cache : PerformanceCache (List Char) (List Char)
  rate_limiter : RateLimiter
deriving Repr

/-- Outcome of the upstream `GoogleTranslator(...).translate(text)` call:
it returns a value (possibly `None`), raises `asyncio.TimeoutError`, raises
`ValueError`, or raises some other exception. -/
inductive UpstreamOutcome : Type
  | returns : Option (List Char) → UpstreamOutcome
  | timesOut : UpstreamOutcome
  | raisesValueError : UpstreamOutcome
  | raises : UpstreamOutcome
deriving DecidableEq, Repr

/-- The reply `translate_text` sends, by branch of the source. -/
inductive GateResult : Type
  | rateLimited : GateResult
  | invalidInput : String → GateResult
  | invalidLang : String → GateResult
  | cachedResult : List Char → GateResult
  | freshResult : List Char → GateResult
  | upstreamTimeout : GateResult
  | translationFailed : GateResult
  | unexpectedError : GateResult
deriving DecidableEq, Repr

/-- One call's observable effect: the reply, the final bot state, and
whether the upstream translator was invoked. -/
structure GateOutput where
  result : GateResult
  state : BotState
  upstreamCalled : Bool
deriving Repr

/-- Cache key: `hashlib.md5(f"{text}:{target_lang}".encode()).hexdigest()`,
modelled as the digest's pre-image (an opaque fingerprint of the pair). -/
def mkCacheKey (text target_lang : List Char) : List Char :=
  text ++ ':' :: target_lang

/-- The cache-miss tail of `translate_text`: record the request with the
rate limiter, invoke the upstream translator, treat an empty/`None` result
as a `ValueError`, cache a non-empty result.  `except asyncio.TimeoutError`,
`except ValueError` and `except Exception` map to the three error replies. -/
def translateMiss (st : BotState) (user_id : ℕ) (cache_key : List Char)
    (now : ℚ) (upstream : UpstreamOutcome) : GateOutput :=
  let st : BotState := { st with rate_limiter := st.rate_limiter.add_request user_id now }
  match upstream with
  | .timesOut => ⟨.upstreamTimeout, st, true⟩
  | .raisesValueError => ⟨.translationFailed, st, true⟩
  | .raises => ⟨.unexpectedError, st, true⟩
  | .returns none => ⟨.translationFailed, st, true⟩
  | .returns (some t) =>
    if t.isEmpty then ⟨.translationFailed, st, true⟩
    else
      match st.cache.set cache_key t now with
      | .ok c2 => ⟨.freshResult t, { st with cache := c2 }, true⟩
      | .error _ => ⟨.unexpectedError, st, true⟩

/-- Method `TranslateBot.translate_text`, in source order: rate-limit check first,
then text validation, then language-code validation, then cache lookup
(`if cached_result:` is a truthiness test, so an empty cached string is
treated as a miss), and only then `add_request` and the upstream call. -/
def translate_text (st : BotState) (user_id : ℕ) (text target_lang : List Char)
    (now : ℚ) (upstream : UpstreamOutcome) : GateOutput :=
  let ar := st.rate_limiter.is_allowed user_id now
  let st : BotState := { st with rate_limiter := ar.2 }
  if !ar.1 then ⟨.rateLimited, st, false⟩
  else
    let tv := validate_text text
    if !tv.1 then ⟨.invalidInput (tv.2.getD ""), st, false⟩
    else
      match validate_language_code target_lang with
      | .err e => ⟨.invalidLang e, st, false⟩
      | .ok processed =>
        let cache_key := mkCacheKey text processed
        let gc := st.cache.get cache_key now
        let st : BotState := { st with cache := gc.2 }
        match gc.1 with
        | some v =>
          if !v.isEmpty then ⟨.cachedResult v, st, false⟩
          else translateMiss st user_id cache_key now upstream
        | none => translateMiss st user_id cache_key now upstream

/-- A call against a `PerformanceCache`, with its `time.time()` value. -/
inductive CacheOp (K V : Type) : Type
  | get : K → ℚ → CacheOp K V
  | set : K → V → ℚ → CacheOp K V

/-- Run a sequence of cache calls.  A `set` that raises leaves the state it
was given (the raising branches are unreachable from a well-formed state). -/
def runOps (c : PerformanceCache K V) : List (CacheOp K V) → PerformanceCache K V
  | [] => c
  | .get k t :: rest => runOps (c.get k t).2 rest
  | .set k v t :: rest =>
      runOps (match c.set k v t with | .ok c' => c' | .error _ => c) rest

/-- Whether a reply is one of the failure branches of `translate_text`
(everything except a cached or fresh translation). -/
def GateResult.isError : GateResult → Bool
  | .cachedResult _ => false
  | .freshResult _ => false
  | _ => true

/-- Dict well-formedness of a cache state: both stores are duplicate-free
(as Python dicts are by construction) and track the same key set. -/
def PerformanceCache.WF (c : PerformanceCache K V) : Prop :=
  (keysOf c.cache).Nodup ∧ (keysOf c.timestamps).Nodup ∧
  ∀ k, k ∈ keysOf c.cache ↔ k ∈ keysOf c.timestamps

/-! ### Association-list lemmas -/

theorem keysOf_nil : keysOf ([] : List (K × V)) = [] := rfl

theorem keysOf_cons (p : K × V) (l : List (K × V)) :
    keysOf (p :: l) = p.1 :: keysOf l := rfl

theorem keysOf_append (l l' : List (K × V)) :
    keysOf (l ++ l') = keysOf l ++ keysOf l' := by
  simp [keysOf]

theorem length_keysOf (l : List (K × V)) : (keysOf l).length = l.length := by
  simp [keysOf]

theorem mem_keysOf {l : List (K × V)} {k : K} :
    k ∈ keysOf l ↔ ∃ v, (k, v) ∈ l := by
  rw [keysOf, List.mem_map]
  constructor
  · rintro ⟨⟨a, b⟩, hm, rfl⟩
    exact ⟨b, hm⟩
  · rintro ⟨v, hv⟩
    exact ⟨(k, v), hv, rfl⟩

theorem alookup_eq_none {l : List (K × V)} {k : K} :
    alookup l k = none ↔ k ∉ keysOf l := by
  induction l with
  | nil => simp [alookup, keysOf_nil]
  | cons p rest ih =>
    obtain ⟨k', v'⟩ := p
    rw [keysOf_cons]
    by_cases h : k' = k
    · subst h; simp [alookup]
    · simp only [alookup, if_neg h, ih, List.mem_cons]
      constructor
      · rintro hn (hc | hc)
        · exact h hc.symm
        · exact hn hc
      · intro hn hc
        exact hn (Or.inr hc)

theorem alookup_isSome_iff {l : List (K × V)} {k : K} :
    (alookup l k).isSome ↔ k ∈ keysOf l := by
  rcases h : alookup l k with _ | v
  · simp [alookup_eq_none.mp h]
  · simp only [Option.isSome_some, true_iff]
    by_contra hk
    rw [alookup_eq_none.mpr hk] at h
    exact Option.noConfusion h

theorem alookup_filter_key (q : K → Bool) (l : List (K × V)) (k : K) :
    alookup (l.filter fun p => q p.1) k = if q k then alookup l k else none := by
  induction l with
  | nil => simp [alookup]
  | cons p rest ih =>
    obtain ⟨k', v'⟩ := p
    by_cases hq : q k'
    · rw [List.filter_cons_of_pos (by simpa using hq)]
      by_cases hk : k' = k
      · subst hk; simp [alookup, hq]
      · simp [alookup, hk, ih]
    · rw [List.filter_cons_of_neg (by simpa using hq)]
      by_cases hk : k' = k
      · subst hk
        rw [ih, alookup, if_pos rfl]
        simp [hq]
      · rw [ih, alookup, if_neg hk]

theorem keysOf_filter_key (q : K → Bool) (l : List (K × V)) :
    keysOf (l.filter fun p => q p.1) = (keysOf l).filter q := by
  induction l with
  | nil => simp [keysOf_nil]
  | cons p rest ih =>
    obtain ⟨k', v'⟩ := p
    rw [keysOf_cons]
    by_cases hq : q k'
    · rw [List.filter_cons_of_pos (by simpa using hq),
        List.filter_cons_of_pos (by simpa using hq), keysOf_cons, ih]
    · rw [List.filter_cons_of_neg (by simpa using hq),
        List.filter_cons_of_neg (by simpa using hq), ih]

theorem alookup_odSet_self (l : List (K × V)) (k : K) (v : V) :
    alookup (odSet l k v) k = some v := by
  induction l with
  | nil => simp [odSet, alookup]
  | cons p rest ih =>
    obtain ⟨k', v'⟩ := p
    by_cases h : k' = k <;> simp [odSet, alookup, h, ih]

theorem alookup_odSet_ne {k k' : K} (h : k' ≠ k) (l : List (K × V)) (v : V) :
    alookup (odSet l k v) k' = alookup l k' := by
  induction l with
  | nil => simp [odSet, alookup, Ne.symm h]
  | cons p rest ih =>
    obtain ⟨k'', v''⟩ := p
    by_cases hk : k'' = k
    · subst hk; simp [odSet, alookup, Ne.symm h]
    · simp [odSet, alookup, hk, ih]

theorem keysOf_odSet (l : List (K × V)) (k : K) (v : V) :
    keysOf (odSet l k v) =
      if k ∈ keysOf l then keysOf l else keysOf l ++ [k] := by
  induction l with
  | nil => simp [odSet, keysOf]
  | cons p rest ih =>
    obtain ⟨k', v'⟩ := p
    rw [keysOf_cons]
    by_cases h : k' = k
    · subst h; simp [odSet, keysOf_cons]
    · rw [odSet, if_neg h, keysOf_cons, ih]
      by_cases hm : k ∈ keysOf rest
      · simp [hm, Ne.symm h, List.mem_cons]
      · simp [hm, Ne.symm h, List.mem_cons]

theorem length_odSet (l : List (K × V)) (k : K) (v : V) :
    (odSet l k v).length =
      if k ∈ keysOf l then l.length else l.length + 1 := by
  have h := congrArg List.length (keysOf_odSet l k v)
  rw [length_keysOf] at h
  by_cases hm : k ∈ keysOf l
  · rw [if_pos hm] at h ⊢
    rw [h, length_keysOf]
  · rw [if_neg hm] at h ⊢
    rw [h, List.length_append, length_keysOf, List.length_singleton]

theorem alookup_aremove_ne {k k' : K} (h : k' ≠ k) (l : List (K × V)) :
    alookup (aremove l k) k' = alookup l k' := by
  induction l with
  | nil => simp [aremove]
  | cons p rest ih =>
    obtain ⟨k'', v''⟩ := p
    by_cases hk : k'' = k
    · subst hk; simp [aremove, alookup, Ne.symm h]
    · simp [aremove, alookup, hk, ih]

theorem keysOf_aremove (l : List (K × V)) (k : K) :
    keysOf (aremove l k) = lerase (keysOf l) k := by
  induction l with
  | nil => simp [aremove, keysOf_nil, lerase]
  | cons p rest ih =>
    obtain ⟨k', v'⟩ := p
    rw [keysOf_cons]
    by_cases h : k' = k
    · simp [aremove, lerase, h]
    · rw [aremove, if_neg h, keysOf_cons, lerase, if_neg h, ih]

theorem mem_lerase_subset {ks : List K} {k x : K} (hx : x ∈ lerase ks k) :
    x ∈ ks := by
  induction ks with
  | nil => simpa [lerase] using hx
  | cons y ys ih =>
    by_cases hy : y = k
    · rw [lerase, if_pos hy] at hx
      exact List.mem_cons_of_mem _ hx
    · rw [lerase, if_neg hy] at hx
      rcases List.mem_cons.mp hx with hx | hx
      · exact List.mem_cons.mpr (Or.inl hx)
      · exact List.mem_cons_of_mem _ (ih hx)

theorem alookup_append (l l' : List (K × V)) (k : K) :
    alookup (l ++ l') k =
      match alookup l k with
      | some v => some v
      | none => alookup l' k := by
  induction l with
  | nil => simp [alookup]
  | cons p rest ih =>
    obtain ⟨k', v'⟩ := p
    by_cases h : k' = k <;> simp [alookup, h, ih]

theorem alookup_of_nodup_mem {l : List (K × V)} {k : K} {v : V}
    (hnd : (keysOf l).Nodup) (hm : (k, v) ∈ l) : alookup l k = some v := by
  induction l with
  | nil => simp at hm
  | cons p rest ih =>
    obtain ⟨k', v'⟩ := p
    rw [keysOf_cons, List.nodup_cons] at hnd
    rcases List.mem_cons.mp hm with h | h
    · rw [alookup, if_pos (congrArg Prod.fst h).symm]
      exact congrArg some (congrArg Prod.snd h).symm
    · have hne : k' ≠ k := by
        intro he
        exact hnd.1 (he ▸ mem_keysOf.mpr ⟨v, h⟩)
      rw [alookup, if_neg hne]
      exact ih hnd.2 h

theorem alookup_aremove_self_of_nodup {l : List (K × V)} {k : K}
    (hnd : (keysOf l).Nodup) : alookup (aremove l k) k = none := by
  induction l with
  | nil => simp [aremove, alookup]
  | cons p rest ih =>
    obtain ⟨k', v'⟩ := p
    rw [keysOf_cons, List.nodup_cons] at hnd
    by_cases h : k' = k
    · subst h
      rw [aremove, if_pos rfl]
      exact alookup_eq_none.mpr hnd.1
    · rw [aremove, if_neg h, alookup, if_neg h]
      exact ih hnd.2

theorem nodup_keysOf_odSet {l : List (K × V)} {k : K} (v : V)
    (hnd : (keysOf l).Nodup) : (keysOf (odSet l k v)).Nodup := by
  rw [keysOf_odSet]
  by_cases hm : k ∈ keysOf l
  · simpa [hm]
  · rw [if_neg hm]
    simpa [List.nodup_append, hm] using hnd

theorem nodup_keysOf_aremove {l : List (K × V)} (k : K)
    (hnd : (keysOf l).Nodup) : (keysOf (aremove l k)).Nodup := by
  induction l with
  | nil => simp [aremove, keysOf_nil]
  | cons p rest ih =>
    obtain ⟨k', v'⟩ := p
    rw [keysOf_cons, List.nodup_cons] at hnd
    by_cases h : k' = k
    · rw [aremove, if_pos h]
      exact hnd.2
    · rw [aremove, if_neg h, keysOf_cons, List.nodup_cons]
      refine ⟨fun hc => ?_, ih hnd.2⟩
      rw [keysOf_aremove] at hc
      exact hnd.1 (mem_lerase_subset hc)

theorem nodup_keysOf_filter (p : K × V → Bool) {l : List (K × V)}
    (hnd : (keysOf l).Nodup) : (keysOf (l.filter p)).Nodup := by
  induction l with
  | nil => simp [keysOf_nil]
  | cons q rest ih =>
    obtain ⟨k', v'⟩ := q
    rw [keysOf_cons, List.nodup_cons] at hnd
    by_cases hp : p (k', v')
    · rw [List.filter_cons_of_pos hp, keysOf_cons, List.nodup_cons]
      refine ⟨fun hc => ?_, ih hnd.2⟩
      rcases mem_keysOf.mp hc with ⟨v, hv⟩
      exact hnd.1 (mem_keysOf.mpr ⟨v, (List.mem_filter.mp hv).1⟩)
    · rw [List.filter_cons_of_neg hp]
      exact ih hnd.2

theorem alookup_mem {l : List (K × V)} {k : K} {v : V}
    (h : alookup l k = some v) : (k, v) ∈ l := by
  induction l with
  | nil => simp [alookup] at h
  | cons p rest ih =>
    obtain ⟨k', v'⟩ := p
    by_cases hk : k' = k
    · subst hk
      rw [alookup, if_pos rfl] at h
      exact List.mem_cons.mpr (Or.inl (by simpa using (Option.some_inj.mp h).symm))
    · rw [alookup, if_neg hk] at h
      exact List.mem_cons_of_mem _ (ih h)

theorem mem_lerase_of_ne {ks : List K} {k k' : K} (h : k' ≠ k) :
    k' ∈ lerase ks k ↔ k' ∈ ks := by
  induction ks with
  | nil => simp [lerase]
  | cons y ys ih =>
    by_cases hy : y = k
    · subst hy
      rw [lerase, if_pos rfl]
      simp [Ne.symm (fun he => h he.symm), h]
    · rw [lerase, if_neg hy]
      simp [ih]

theorem not_mem_lerase_self_of_nodup {ks : List K} {k : K} (hnd : ks.Nodup) :
    k ∉ lerase ks k := by
  induction ks with
  | nil => simp [lerase]
  | cons y ys ih =>
    rw [List.nodup_cons] at hnd
    by_cases hy : y = k
    · subst hy
      rw [lerase, if_pos rfl]
      exact hnd.1
    · rw [lerase, if_neg hy]
      intro hc
      rcases List.mem_cons.mp hc with hc | hc
      · exact hy hc.symm
      · exact ih hnd.2 hc

theorem nodup_lerase {ks : List K} (k : K) (hnd : ks.Nodup) :
    (lerase ks k).Nodup := by
  induction ks with
  | nil => simp [lerase]
  | cons y ys ih =>
    rw [List.nodup_cons] at hnd
    by_cases hy : y = k
    · rw [lerase, if_pos hy]
      exact hnd.2
    · rw [lerase, if_neg hy, List.nodup_cons]
      refine ⟨fun hc => hnd.1 (mem_lerase_subset hc), ih hnd.2⟩

theorem length_aremove_of_mem {l : List (K × V)} {k : K}
    (h : k ∈ keysOf l) : (aremove l k).length + 1 = l.length := by
  induction l with
  | nil => simp [keysOf_nil] at h
  | cons p rest ih =>
    obtain ⟨k', v'⟩ := p
    by_cases hk : k' = k
    · rw [aremove, if_pos hk]
      simp
    · rw [keysOf_cons, List.mem_cons] at h
      rcases h with h | h
      · exact absurd h.symm hk
      · rw [aremove, if_neg hk, List.length_cons, List.length_cons, ih h]

theorem mem_keysOf_odSet {l : List (K × V)} {k k' : K} {v : V} :
    k' ∈ keysOf (odSet l k v) ↔ k' ∈ keysOf l ∨ k' = k := by
  rw [keysOf_odSet]
  by_cases hm : k ∈ keysOf l
  · rw [if_pos hm]
    constructor
    · exact Or.inl
    · rintro (h | rfl)
      · exact h
      · exact hm
  · rw [if_neg hm]
    simp

theorem odSet_append_self {l : List (K × V)} {k : K} (h : k ∉ keysOf l)
    (v0 v : V) : odSet (l ++ [(k, v0)]) k v = l ++ [(k, v)] := by
  induction l with
  | nil => simp [odSet]
  | cons p rest ih =>
    obtain ⟨k', w⟩ := p
    rw [keysOf_cons, List.mem_cons] at h
    push_neg at h
    rw [List.cons_append, odSet, if_neg (fun he => h.1 he.symm),
      List.cons_append, ih h.2]

/-! ### Cache structural lemmas -/

theorem cleanup_max_size (c : PerformanceCache K V) (now : ℚ) :
    (cleanup_expired c now).max_size = c.max_size := rfl

theorem cleanup_ttl (c : PerformanceCache K V) (now : ℚ) :
    (cleanup_expired c now).ttl = c.ttl := rfl

theorem cleanup_cache (c : PerformanceCache K V) (now : ℚ) :
    (cleanup_expired c now).cache =
      c.cache.filter fun p => !(p.1 ∈ expiredKeys c now) := rfl

theorem cleanup_timestamps (c : PerformanceCache K V) (now : ℚ) :
    (cleanup_expired c now).timestamps =
      c.timestamps.filter fun p => !(p.1 ∈ expiredKeys c now) := rfl

theorem alookup_cleanup_cache (c : PerformanceCache K V) (now : ℚ) (k : K) :
    alookup (cleanup_expired c now).cache k =
      if !(k ∈ expiredKeys c now) then alookup c.cache k else none := by
  rw [cleanup_cache]
  exact alookup_filter_key (fun x => !decide (x ∈ expiredKeys c now)) c.cache k

theorem alookup_cleanup_timestamps (c : PerformanceCache K V) (now : ℚ) (k : K) :
    alookup (cleanup_expired c now).timestamps k =
      if !(k ∈ expiredKeys c now) then alookup c.timestamps k else none := by
  rw [cleanup_timestamps]
  exact alookup_filter_key (fun x => !decide (x ∈ expiredKeys c now)) c.timestamps k

theorem keysOf_cleanup_cache (c : PerformanceCache K V) (now : ℚ) :
    keysOf (cleanup_expired c now).cache =
      (keysOf c.cache).filter fun k => !(k ∈ expiredKeys c now) := by
  rw [cleanup_cache]
  exact keysOf_filter_key (fun x => !decide (x ∈ expiredKeys c now)) c.cache

theorem keysOf_cleanup_timestamps (c : PerformanceCache K V) (now : ℚ) :
    keysOf (cleanup_expired c now).timestamps =
      (keysOf c.timestamps).filter fun k => !(k ∈ expiredKeys c now) := by
  rw [cleanup_timestamps]
  exact keysOf_filter_key (fun x => !decide (x ∈ expiredKeys c now)) c.timestamps

theorem mem_expiredKeys_iff {c : PerformanceCache K V} {key : K} {T : ℚ}
    (now : ℚ) (hnd : (keysOf c.timestamps).Nodup)
    (h : alookup c.timestamps key = some T) :
    key ∈ expiredKeys c now ↔ now - T > c.ttl := by
  rw [expiredKeys, mem_keysOf]
  constructor
  · rintro ⟨v, hv⟩
    rw [List.mem_filter] at hv
    have hl := alookup_of_nodup_mem hnd hv.1
    rw [h] at hl
    obtain rfl : T = v := Option.some_inj.mp hl
    simpa using hv.2
  · intro hgt
    exact ⟨T, List.mem_filter.mpr ⟨alookup_mem h, by simpa using hgt⟩⟩

theorem WF_cleanup {c : PerformanceCache K V} (now : ℚ) (h : c.WF) :
    (cleanup_expired c now).WF := by
  obtain ⟨h1, h2, h3⟩ := h
  refine ⟨nodup_keysOf_filter _ h1, nodup_keysOf_filter _ h2, fun k => ?_⟩
  rw [keysOf_cleanup_cache, keysOf_cleanup_timestamps,
    List.mem_filter, List.mem_filter, h3 k]

theorem get_fst (c : PerformanceCache K V) (key : K) (now : ℚ) :
    (c.get key now).1 = alookup (cleanup_expired c now).cache key := by
  unfold PerformanceCache.get
  rcases h : alookup (cleanup_expired c now).cache key with _ | v <;> simp [h]

theorem get_snd_hit {c : PerformanceCache K V} {key : K} {now : ℚ} {v : V}
    (h : alookup (cleanup_expired c now).cache key = some v) :
    (c.get key now).2 =
      { cleanup_expired c now with
        cache := aremove (cleanup_expired c now).cache key ++ [(key, v)] } := by
  simp only [PerformanceCache.get, h]

theorem get_snd_miss {c : PerformanceCache K V} {key : K} {now : ℚ}
    (h : alookup (cleanup_expired c now).cache key = none) :
    (c.get key now).2 = cleanup_expired c now := by
  simp only [PerformanceCache.get, h]

theorem set_ok_inv {c : PerformanceCache K V} {key : K} {value : V} {now : ℚ}
    {c' : PerformanceCache K V} (h : c.set key value now = .ok c') :
    ∃ cmid : PerformanceCache K V,
      ((cmid = cleanup_expired c now ∧
        (cleanup_expired c now).cache.length < c.max_size) ∨
       (∃ k0 v0 rest, (cleanup_expired c now).cache = (k0, v0) :: rest ∧
        (cleanup_expired c now).cache.length ≥ c.max_size ∧
        k0 ∈ keysOf (cleanup_expired c now).timestamps ∧
        cmid = { cleanup_expired c now with
                 cache := rest
                 timestamps := aremove (cleanup_expired c now).timestamps k0 })) ∧
      c' = { cmid with
             cache := odSet cmid.cache key value
             timestamps := odSet cmid.timestamps key now } := by
  simp only [PerformanceCache.set] at h
  by_cases hge :
      (cleanup_expired c now).cache.length ≥ (cleanup_expired c now).max_size
  · rw [if_pos hge] at h
    rw [cleanup_max_size] at hge
    rcases hc : (cleanup_expired c now).cache with _ | ⟨⟨k0, v0⟩, rest⟩
    · rw [hc] at h
      exact absurd h (by simp)
    · rw [hc] at h
      rw [hc] at hge
      by_cases hk0 : k0 ∈ keysOf (cleanup_expired c now).timestamps
      · simp only [dictPop, if_pos hk0] at h
        refine ⟨_, Or.inr ⟨k0, v0, rest, rfl, hge, hk0, rfl⟩, ?_⟩
        exact (Except.ok.injEq .. ▸ h).symm
      · simp only [dictPop, if_neg hk0] at h
        exact absurd h (by simp)
  · rw [if_neg hge] at h
    rw [cleanup_max_size] at hge
    refine ⟨cleanup_expired c now, Or.inl ⟨rfl, by omega⟩, ?_⟩
    exact (Except.ok.injEq .. ▸ h).symm

theorem set_ne_keyError {c : PerformanceCache K V} (key : K) (value : V)
    (now : ℚ) (h : c.WF) :
    c.set key value now ≠ Except.error PyError.keyError := by
  intro heq
  simp only [PerformanceCache.set] at heq
  by_cases hge :
      (cleanup_expired c now).cache.length ≥ (cleanup_expired c now).max_size
  · rw [if_pos hge] at heq
    rcases hc : (cleanup_expired c now).cache with _ | ⟨⟨k0, v0⟩, rest⟩
    · rw [hc] at heq
      simp at heq
    · rw [hc] at heq
      have hk0c : k0 ∈ keysOf (cleanup_expired c now).cache := by
        rw [hc, keysOf_cons]
        exact List.mem_cons_self _ _
      have hk0 : k0 ∈ keysOf (cleanup_expired c now).timestamps :=
        ((WF_cleanup now h).2.2 k0).mp hk0c
      simp only [dictPop, if_pos hk0] at heq
      simp at heq
  · rw [if_neg hge] at heq
    simp at heq

theorem WF_get {c : PerformanceCache K V} (key : K) (now : ℚ) (h : c.WF) :
    ((c.get key now).2).WF := by
  obtain ⟨h1, h2, h3⟩ := WF_cleanup now h
  rcases hm : alookup (cleanup_expired c now).cache key with _ | v
  · rw [get_snd_miss hm]
    exact ⟨h1, h2, h3⟩
  · rw [get_snd_hit hm]
    have hkmem : key ∈ keysOf (cleanup_expired c now).cache :=
      alookup_isSome_iff.mp (by rw [hm]; rfl)
    refine ⟨?_, h2, fun k => ?_⟩
    · rw [keysOf_append, keysOf_aremove, List.nodup_append]
      refine ⟨nodup_lerase key h1, List.nodup_singleton key, fun x hx => ?_⟩
      simp only [keysOf_cons, keysOf_nil, List.mem_singleton]
      intro hxk
      subst hxk
      exact not_mem_lerase_self_of_nodup h1 hx
    · rw [keysOf_append, keysOf_aremove, List.mem_append]
      simp only [keysOf_cons, keysOf_nil, List.mem_singleton]
      by_cases hk : k = key
      · subst hk
        simp only [or_true, true_iff]
        exact (h3 k).mp hkmem
      · rw [mem_lerase_of_ne hk, h3 k]
        simp [hk]

theorem WF_set {c c' : PerformanceCache K V} {key : K} {value : V} {now : ℚ}
    (h : c.WF) (hs : c.set key value now = .ok c') : c'.WF := by
  obtain ⟨cmid, hmid, hc'⟩ := set_ok_inv hs
  have hcl := WF_cleanup now h
  have hmidWF : cmid.WF := by
    rcases hmid with ⟨rfl, _⟩ | ⟨k0, v0, rest, hc, _, hk0, rfl⟩
    · exact hcl
    · obtain ⟨h1, h2, h3⟩ := hcl
      rw [hc, keysOf_cons, List.nodup_cons] at h1
      refine ⟨h1.2, nodup_keysOf_aremove _ h2, fun k => ?_⟩
      rw [keysOf_aremove]
      by_cases hk : k = k0
      · subst hk
        constructor
        · intro hc2
          exact absurd hc2 h1.1
        · intro hc2
          exact absurd hc2 (not_mem_lerase_self_of_nodup h2)
      · rw [mem_lerase_of_ne hk]
        have h3k := h3 k
        rw [hc, keysOf_cons, List.mem_cons] at h3k
        constructor
        · intro hkr
          exact h3k.mp (Or.inr hkr)
        · intro hts
          rcases h3k.mpr hts with hh | hh
          · exact absurd hh hk
          · exact hh
  obtain ⟨m1, m2, m3⟩ := hmidWF
  rw [hc']
  refine ⟨nodup_keysOf_odSet _ m1, nodup_keysOf_odSet _ m2, fun k => ?_⟩
  show k ∈ keysOf (odSet cmid.cache key value) ↔
    k ∈ keysOf (odSet cmid.timestamps key now)
  rw [mem_keysOf_odSet, mem_keysOf_odSet, m3 k]

theorem length_odSet_le (l : List (K × V)) (k : K) (v : V) :
    (odSet l k v).length ≤ l.length + 1 := by
  rw [length_odSet]
  split <;> omega

theorem cleanup_cache_length_le (c : PerformanceCache K V) (now : ℚ) :
    (cleanup_expired c now).cache.length ≤ c.cache.length := by
  rw [cleanup_cache]
  exact List.length_filter_le _ _

theorem get_max_size (c : PerformanceCache K V) (key : K) (now : ℚ) :
    ((c.get key now).2).max_size = c.max_size := by
  rcases hm : alookup (cleanup_expired c now).cache key with _ | v
  · rw [get_snd_miss hm]
    rfl
  · rw [get_snd_hit hm]
    rfl

theorem get_cache_length_le (c : PerformanceCache K V) (key : K) (now : ℚ) :
    ((c.get key now).2).cache.length ≤ c.cache.length := by
  rcases hm : alookup (cleanup_expired c now).cache key with _ | v
  · rw [get_snd_miss hm]
    exact cleanup_cache_length_le c now
  · rw [get_snd_hit hm]
    have hkmem : key ∈ keysOf (cleanup_expired c now).cache :=
      alookup_isSome_iff.mp (by rw [hm]; rfl)
    have h1 := length_aremove_of_mem hkmem
    have h2 := cleanup_cache_length_le c now
    show (aremove (cleanup_expired c now).cache key ++ [(key, v)]).length ≤ _
    rw [List.length_append, List.length_singleton]
    omega

theorem set_ok_max_size {c c' : PerformanceCache K V} {key : K} {value : V}
    {now : ℚ} (hs : c.set key value now = .ok c') : c'.max_size = c.max_size := by
  obtain ⟨cmid, hmid, hc'⟩ := set_ok_inv hs
  rw [hc']
  rcases hmid with ⟨rfl, _⟩ | ⟨k0, v0, rest, _, _, _, rfl⟩ <;> rfl

theorem set_ok_length {c c' : PerformanceCache K V} {key : K} {value : V}
    {now : ℚ} (hlen : c.cache.length ≤ c.max_size)
    (hs : c.set key value now = .ok c') : c'.cache.length ≤ c.max_size := by
  obtain ⟨cmid, hmid, hc'⟩ := set_ok_inv hs
  have hod : c'.cache.length ≤ cmid.cache.length + 1 := by
    rw [hc']
    exact length_odSet_le _ _ _
  rcases hmid with ⟨rfl, hlt⟩ | ⟨k0, v0, rest, hc, _, _, rfl⟩
  · omega
  · have h1 : (cleanup_expired c now).cache.length = rest.length + 1 := by
      rw [hc, List.length_cons]
    have h2 := cleanup_cache_length_le c now
    dsimp only at hod
    omega

theorem runOps_invariant (ops : List (CacheOp K V)) (c : PerformanceCache K V)
    (hlen : c.cache.length ≤ c.max_size) :
    (runOps c ops).cache.length ≤ (runOps c ops).max_size ∧
    (runOps c ops).max_size = c.max_size := by
  induction ops generalizing c with
  | nil => exact ⟨hlen, rfl⟩
  | cons op rest ih =>
    cases op with
    | get k t =>
      have h1 : ((c.get k t).2).cache.length ≤ ((c.get k t).2).max_size := by
        rw [get_max_size]
        exact le_trans (get_cache_length_le c k t) hlen
      obtain ⟨ha, hb⟩ := ih _ h1
      have hstep : runOps c (.get k t :: rest) = runOps (c.get k t).2 rest := rfl
      refine ⟨?_, ?_⟩
      · rw [hstep]
        exact ha
      · rw [hstep, hb, get_max_size]
    | set k v t =>
      rcases hs : c.set k v t with e | c'
      · have hstep : runOps c (.set k v t :: rest) = runOps c rest := by
          simp [runOps, hs]
        rw [hstep]
        exact ih _ hlen
      · have h1 : c'.cache.length ≤ c'.max_size := by
          rw [set_ok_max_size hs]
          exact set_ok_length hlen hs
        obtain ⟨ha, hb⟩ := ih _ h1
        have hstep : runOps c (.set k v t :: rest) = runOps c' rest := by
          simp [runOps, hs]
        refine ⟨?_, ?_⟩
        · rw [hstep]
          exact ha
        · rw [hstep, hb, set_ok_max_size hs]

theorem validate_text_replicate (n : ℕ) (h0 : 0 < n) (h8 : n ≤ 8000) :
    validate_text (List.replicate n 'a') =
      if 4000 < n then (false, some "Text is too long (maximum 4000 characters)")
      else (true, none) := by
  have hie : (List.replicate n 'a').isEmpty = false := by
    cases n with
    | zero => omega
    | succ m => simp [List.replicate_succ]
  have hdw : ∀ m : ℕ,
      List.dropWhile pyIsSpace (List.replicate m 'a') = List.replicate m 'a' := by
    intro m
    cases m with
    | zero => simp
    | succ mm =>
      rw [List.replicate_succ, List.dropWhile_cons_of_neg (by decide)]
  have hstrip : pyStrip (List.replicate n 'a') = List.replicate n 'a' := by
    rw [pyStrip, hdw, List.reverse_replicate, hdw, List.reverse_replicate]
  have hlen : (List.replicate n 'a').length = n := List.length_replicate n 'a'
  have hutf : utf8Len (List.replicate n 'a') = n := by
    rw [utf8Len, List.map_replicate]
    have h1 : charUtf8Size 'a' = 1 := by decide
    rw [h1, List.sum_replicate, smul_eq_mul, mul_one]
  rw [validate_text, hstrip, hie]
  simp only [hlen, hutf, Bool.or_self, Bool.false_eq_true, if_false]
  by_cases h4 : 4000 < n
  · simp [h4]
  · have h8' : ¬ utf8Len (List.replicate n 'a') > 8000 := by rw [hutf]; omega
    simp [h4, h8', hutf]
    omega

/-! ### Claim theorems -/

/-- C7: a text of exactly 4000 characters passes `validate_text` and one of
4001 characters is rejected with the too-long message; `validate_language_code`
accepts `"en-US"` normalized to `"en-us"` and rejects `"../etc"` for carrying
characters outside alphanumerics plus `-` and `_`. -/
theorem C7_validation_boundaries :
    validate_text (List.replicate 4000 'a') = (true, none) ∧
    validate_text (List.replicate 4001 'a') =
      (false, some "Text is too long (maximum 4000 characters)") ∧
    validate_language_code "en-US".data = .ok "en-us".data ∧
    validate_language_code "../etc".data =
      .err "Language code contains invalid characters" := by
  refine ⟨?_, ?_, by decide, by decide⟩
  · rw [validate_text_replicate 4000 (by omega) (by omega)]
    norm_num
  · rw [validate_text_replicate 4001 (by omega) (by omega)]
    norm_num

/-- C5: `is_allowed` keeps exactly the timestamps with `now - t < window`,
stores that pruned history back without appending anything, and returns
whether its length is strictly below `max_requests`; concretely, with
`max_requests = 3` and `window = 60`, three `add_request` calls make it
return `false` at once, and it returns `true` again 61 seconds later. -/
theorem C5_sliding_window :
    (∀ (r : RateLimiter) (u : ℕ) (now : ℚ),
      (r.is_allowed u now).1 =
        decide ((((alookup r.requests u).getD []).filter
          (fun t => now - t < r.window)).length < r.max_requests) ∧
      alookup (r.is_allowed u now).2.requests u =
        some (((alookup r.requests u).getD []).filter fun t => now - t < r.window) ∧
      (r.is_allowed u now).2.max_requests = r.max_requests ∧
      (r.is_allowed u now).2.window = r.window) ∧
    (((((RateLimiter.empty 3 60).add_request 1 0).add_request 1 0).add_request 1 0).is_allowed
        1 0).1 = false ∧
    (((((RateLimiter.empty 3 60).add_request 1 0).add_request 1 0).add_request 1 0).is_allowed
        1 61).1 = true := by
  refine ⟨fun r u now => ?_, ?_, ?_⟩
  · rcases h : alookup r.requests u with _ | v <;>
      simp [RateLimiter.is_allowed, ddGet, h, alookup_odSet_self]
  · norm_num [RateLimiter.is_allowed, RateLimiter.add_request, RateLimiter.empty,
      ddGet, alookup, odSet]
  · norm_num [RateLimiter.is_allowed, RateLimiter.add_request, RateLimiter.empty,
      ddGet, alookup, odSet]

/-- C9: checking a fresh identity is not state-free: `is_allowed` on an
identity absent from the `defaultdict` inserts it with an empty history
(appending no timestamp), growing the set of tracked identities by one. -/
theorem C9_fresh_identity_inserted (r : RateLimiter) (u : ℕ) (now : ℚ)
    (h : alookup r.requests u = none) :
    (r.is_allowed u now).2.requests = r.requests ++ [(u, [])] ∧
    (r.is_allowed u now).2.requests.length = r.requests.length + 1 := by
  have hmem : u ∉ keysOf r.requests := alookup_eq_none.mp h
  have hmain : (r.is_allowed u now).2.requests = r.requests ++ [(u, [])] := by
    simp only [RateLimiter.is_allowed, ddGet, h]
    rw [List.filter_nil, odSet_append_self hmem]
  refine ⟨hmain, ?_⟩
  rw [hmain, List.length_append, List.length_singleton]

/-- Closed witness for C9 at the freshly constructed limiter. -/
theorem C9_fresh_identity_inserted_witness :
    ((RateLimiter.empty 15 60).is_allowed 42 0).2.requests =
      (RateLimiter.empty 15 60).requests ++ [(42, [])] ∧
    ((RateLimiter.empty 15 60).is_allowed 42 0).2.requests.length =
      (RateLimiter.empty 15 60).requests.length + 1 :=
  C9_fresh_identity_inserted (RateLimiter.empty 15 60) 42 0 rfl

/-- C10: every cache operation preserves the invariant that the value store
and the timestamp map are duplicate-free and track the same key set, and
under it the eviction branch's unguarded `timestamps.pop(oldest_key)` can
never raise `KeyError` (the evicted key always has a recorded timestamp). -/
theorem C10_key_sets_agree (c : PerformanceCache K V) (key : K) (value : V)
    (now : ℚ) (h : c.WF) :
    ((c.get key now).2).WF ∧
    (∀ c', c.set key value now = .ok c' → c'.WF) ∧
    c.set key value now ≠ Except.error PyError.keyError :=
  ⟨WF_get key now h, fun _ hs => WF_set h hs, set_ne_keyError key value now h⟩

/-- Closed witness for C10 at the freshly constructed cache. -/
theorem C10_key_sets_agree_witness :
    (((PerformanceCache.empty ℕ ℕ 1000 3600).get 1 0).2).WF ∧
    (∀ c', (PerformanceCache.empty ℕ ℕ 1000 3600).set 1 2 0 = .ok c' → c'.WF) ∧
    (PerformanceCache.empty ℕ ℕ 1000 3600).set 1 2 0 ≠
      Except.error PyError.keyError :=
  C10_key_sets_agree (PerformanceCache.empty ℕ ℕ 1000 3600) 1 2 0
    ⟨List.nodup_nil, List.nodup_nil, fun _ => Iff.rfl⟩

/-- C6: after any sequence of cache calls from a fresh cache of positive
capacity, at most `max_size` entries are live — in particular `size() <=
capacity` holds after every `set`, since every intermediate state is itself
reached by such a sequence. -/
theorem C6_capacity_invariant (m : ℕ) (ttl : ℚ) (ops : List (CacheOp K V))
    (hm : 1 ≤ m) :
    (runOps (PerformanceCache.empty K V m ttl) ops).cache.length ≤ m := by
  have h := runOps_invariant ops (PerformanceCache.empty K V m ttl)
    (by simp [PerformanceCache.empty])
  have hms : (PerformanceCache.empty K V m ttl).max_size = m := rfl
  have h1 := h.1
  rw [h.2, hms] at h1
  exact h1

/-- Closed witness for C6: two inserts into a capacity-1 cache. -/
theorem C6_capacity_invariant_witness :
    (runOps (PerformanceCache.empty ℕ ℕ 1 3600)
      [CacheOp.set 1 10 0, CacheOp.set 2 20 0]).cache.length ≤ 1 :=
  C6_capacity_invariant 1 3600 [CacheOp.set 1 10 0, CacheOp.set 2 20 0]
    (by omega)

/-- C4: a key stored by `set` at time `T` is returned by `get` at any time
strictly before `T + ttl` and is absent at any time strictly after `T + ttl`,
because every access first purges entries whose age exceeds `ttl`. -/
theorem C4_ttl_expiry (c c' : PerformanceCache K V) (key : K) (value : V)
    (T : ℚ) (hnd : (keysOf c.timestamps).Nodup)
    (hset : c.set key value T = .ok c') :
    (∀ now, now < T + c.ttl → (c'.get key now).1 = some value) ∧
    (∀ now, T + c.ttl < now → (c'.get key now).1 = none) := by
  obtain ⟨cmid, hmid, hc'⟩ := set_ok_inv hset
  have ha : alookup c'.cache key = some value := by
    rw [hc']
    exact alookup_odSet_self cmid.cache key value
  have hb : alookup c'.timestamps key = some T := by
    rw [hc']
    exact alookup_odSet_self cmid.timestamps key T
  have hndmid : (keysOf cmid.timestamps).Nodup := by
    rcases hmid with ⟨rfl, _⟩ | ⟨k0, v0, rest, _, _, _, rfl⟩
    · rw [cleanup_timestamps]
      exact nodup_keysOf_filter _ hnd
    · exact nodup_keysOf_aremove _ (by
        rw [cleanup_timestamps]
        exact nodup_keysOf_filter _ hnd)
  have hndc' : (keysOf c'.timestamps).Nodup := by
    rw [hc']
    exact nodup_keysOf_odSet _ hndmid
  have httl : c'.ttl = c.ttl := by
    rw [hc']
    rcases hmid with ⟨rfl, _⟩ | ⟨k0, v0, rest, _, _, _, rfl⟩ <;> rfl
  have key_exp : ∀ now : ℚ, key ∈ expiredKeys c' now ↔ now - T > c.ttl := by
    intro now
    rw [mem_expiredKeys_iff now hndc' hb, httl]
  refine ⟨fun now hlt => ?_, fun now hgt => ?_⟩
  · have hnm : ¬ key ∈ expiredKeys c' now := by
      rw [key_exp]
      push_neg
      linarith
    rw [get_fst, alookup_cleanup_cache, if_pos (by simpa using hnm), ha]
  · have hm : key ∈ expiredKeys c' now := by
      rw [key_exp]
      linarith
    rw [get_fst, alookup_cleanup_cache, if_neg (by simpa using hm)]

/-- Closed witness for C4: a key set at time 0 with ttl 100 is readable at
time 50 and gone at time 101. -/
theorem C4_ttl_expiry_witness :
    ((({ cache := [(1, 5)], timestamps := [(1, 0)], max_size := 1000,
          ttl := 100 } : PerformanceCache ℕ ℕ).get 1 50).1 = some 5) ∧
    ((({ cache := [(1, 5)], timestamps := [(1, 0)], max_size := 1000,
          ttl := 100 } : PerformanceCache ℕ ℕ).get 1 101).1 = none) := by
  have h := C4_ttl_expiry (PerformanceCache.empty ℕ ℕ 1000 100)
    ({ cache := [(1, 5)], timestamps := [(1, 0)], max_size := 1000,
       ttl := 100 } : PerformanceCache ℕ ℕ) 1 5 0 List.nodup_nil rfl
  have he : (PerformanceCache.empty ℕ ℕ 1000 100).ttl = (100 : ℚ) := rfl
  rw [he] at h
  exact ⟨h.1 50 (by norm_num), h.2 101 (by norm_num)⟩

/-- C3 counterexample: with capacity 3, after `set 1`, `set 2`, an
overwriting `set 1`, and `set 3`, the key `1` was touched more recently than
`2` (by the overwrite), yet the eviction fired by `set 4` removes `1` and
keeps `2` — `OrderedDict` assignment does not refresh an existing key's
position, so the evicted key is not the least recently touched one. -/
theorem C3_lru_eviction_counterexample :
    alookup (runOps (PerformanceCache.empty ℕ ℕ 3 100)
      [CacheOp.set 1 10 0, CacheOp.set 2 20 0, CacheOp.set 1 11 0,
       CacheOp.set 3 30 0, CacheOp.set 4 40 0]).cache 1 = none ∧
    alookup (runOps (PerformanceCache.empty ℕ ℕ 3 100)
      [CacheOp.set 1 10 0, CacheOp.set 2 20 0, CacheOp.set 1 11 0,
       CacheOp.set 3 30 0, CacheOp.set 4 40 0]).cache 2 = some 20 := by
  norm_num [runOps, PerformanceCache.set, PerformanceCache.empty, cleanup_expired,
    expiredKeys, keysOf, dictPop, odSet, aremove, alookup]

/-- C3 (amended): the `OrderedDict` order of live keys is the recency order
the evictor consults — a `get` hit moves its key to the back (most recent),
a `set` below capacity appends a new key at the back but leaves the position
of an overwritten key unchanged, and an eviction removes exactly the front
(least recent) key before the assignment. -/
theorem C3_lru_recency (c : PerformanceCache K V) (k : K) (v : V) (now : ℚ) :
    (∀ w, alookup (cleanup_expired c now).cache k = some w →
      keysOf ((c.get k now).2).cache =
        lerase (keysOf (cleanup_expired c now).cache) k ++ [k]) ∧
    ((cleanup_expired c now).cache.length < c.max_size →
      ∀ c', c.set k v now = .ok c' →
        keysOf c'.cache =
          if k ∈ keysOf (cleanup_expired c now).cache
          then keysOf (cleanup_expired c now).cache
          else keysOf (cleanup_expired c now).cache ++ [k]) ∧
    (∀ k0 v0 rest, (cleanup_expired c now).cache = (k0, v0) :: rest →
      ∀ c', c.set k v now = .ok c' →
        (cleanup_expired c now).cache.length ≥ c.max_size →
        keysOf c'.cache =
          if k ∈ keysOf rest then keysOf rest else keysOf rest ++ [k]) := by
  refine ⟨fun w hw => ?_, fun hlt c' hs => ?_, fun k0 v0 rest hc c' hs hge => ?_⟩
  · rw [get_snd_hit hw]
    show keysOf (aremove (cleanup_expired c now).cache k ++ [(k, w)]) = _
    rw [keysOf_append, keysOf_aremove]
    rfl
  · obtain ⟨cmid, hmid, hc'⟩ := set_ok_inv hs
    rcases hmid with ⟨rfl, _⟩ | ⟨k0', v0', rest', _, hge', _, rfl⟩
    · rw [hc']
      exact keysOf_odSet _ k v
    · omega
  · obtain ⟨cmid, hmid, hc'⟩ := set_ok_inv hs
    rcases hmid with ⟨rfl, hlt⟩ | ⟨k0', v0', rest', hc2, hge', _, rfl⟩
    · omega
    · have hcc := hc2.symm.trans hc
      rw [List.cons.injEq, Prod.mk.injEq] at hcc
      obtain ⟨⟨rfl, rfl⟩, rfl⟩ := hcc
      rw [hc']
      exact keysOf_odSet _ k v

/-- Closed witness for C3 (amended): a hit refreshes recency, an overwrite
below capacity keeps the key order, and an at-capacity insert evicts the
front key. -/
theorem C3_lru_recency_witness :
    keysOf ((({ cache := [(1, 10)], timestamps := [(1, 0)],
                max_size := 3, ttl := 100 } :
        PerformanceCache ℕ ℕ).get 1 0).2).cache = [1] ∧
    keysOf ({ cache := [(1, 99)], timestamps := [(1, 0)],
              max_size := 3, ttl := 100 } :
        PerformanceCache ℕ ℕ).cache = [1] ∧
    keysOf ({ cache := [(2, 20), (3, 99)], timestamps := [(2, 0), (3, 0)],
              max_size := 2, ttl := 100 } :
        PerformanceCache ℕ ℕ).cache = [2, 3] := by
  have hA := C3_lru_recency
    ({ cache := [(1, 10)], timestamps := [(1, 0)], max_size := 3,
       ttl := 100 } : PerformanceCache ℕ ℕ) 1 99 0
  have hB := C3_lru_recency
    ({ cache := [(1, 10), (2, 20)], timestamps := [(1, 0), (2, 0)],
       max_size := 2, ttl := 100 } : PerformanceCache ℕ ℕ) 3 99 0
  refine ⟨?_, ?_, ?_⟩
  · have h1 := hA.1 10 (by
      norm_num [cleanup_expired, expiredKeys, keysOf, alookup])
    rw [h1]
    norm_num [cleanup_expired, expiredKeys, keysOf, lerase, alookup]
  · have h2 := hA.2.1 (by
        norm_num [cleanup_expired, expiredKeys, keysOf])
      ({ cache := [(1, 99)], timestamps := [(1, 0)], max_size := 3,
         ttl := 100 } : PerformanceCache ℕ ℕ) (by
        norm_num [PerformanceCache.set, cleanup_expired, expiredKeys, keysOf,
          dictPop, odSet, alookup])
    rw [h2]
    norm_num [cleanup_expired, expiredKeys, keysOf]
  · have h3 := hB.2.2 1 10 [(2, 20)] (by
        norm_num [cleanup_expired, expiredKeys, keysOf])
      ({ cache := [(2, 20), (3, 99)], timestamps := [(2, 0), (3, 0)],
         max_size := 2, ttl := 100 } : PerformanceCache ℕ ℕ) (by
        norm_num [PerformanceCache.set, cleanup_expired, expiredKeys, keysOf,
          dictPop, odSet, aremove, alookup]) (by
        norm_num [cleanup_expired, expiredKeys, keysOf])
    rw [h3]
    norm_num [keysOf]

/-! ### Gate branch lemmas -/

theorem translate_text_rateLimited {st : BotState} {user : ℕ}
    {text lang : List Char} {now : ℚ} {up : UpstreamOutcome}
    (h : (st.rate_limiter.is_allowed user now).1 = false) :
    translate_text st user text lang now up =
      ⟨.rateLimited, ⟨st.cache, (st.rate_limiter.is_allowed user now).2⟩,
        false⟩ := by
  simp only [translate_text, h, Bool.not_false, if_true]

theorem translate_text_invalidText {st : BotState} {user : ℕ}
    {text lang : List Char} {now : ℚ} {up : UpstreamOutcome}
    (ha : (st.rate_limiter.is_allowed user now).1 = true)
    (htv : (validate_text text).1 = false) :
    translate_text st user text lang now up =
      ⟨.invalidInput ((validate_text text).2.getD ""),
        ⟨st.cache, (st.rate_limiter.is_allowed user now).2⟩, false⟩ := by
  simp only [translate_text, ha, htv, Bool.not_true, Bool.not_false,
    Bool.false_eq_true, if_false, if_true]

theorem translate_text_invalidLang {st : BotState} {user : ℕ}
    {text lang : List Char} {now : ℚ} {up : UpstreamOutcome} {e : String}
    (ha : (st.rate_limiter.is_allowed user now).1 = true)
    (htv : (validate_text text).1 = true)
    (hlv : validate_language_code lang = .err e) :
    translate_text st user text lang now up =
      ⟨.invalidLang e,
        ⟨st.cache, (st.rate_limiter.is_allowed user now).2⟩, false⟩ := by
  simp only [translate_text, ha, htv, hlv, Bool.not_true,
    Bool.false_eq_true, if_false]

theorem translate_text_hit {st : BotState} {user : ℕ}
    {text lang plang : List Char} {now : ℚ} {up : UpstreamOutcome}
    {v : List Char}
    (ha : (st.rate_limiter.is_allowed user now).1 = true)
    (htv : (validate_text text).1 = true)
    (hlv : validate_language_code lang = .ok plang)
    (hget : (st.cache.get (mkCacheKey text plang) now).1 = some v)
    (hv : v.isEmpty = false) :
    translate_text st user text lang now up =
      ⟨.cachedResult v,
        ⟨(st.cache.get (mkCacheKey text plang) now).2,
         (st.rate_limiter.is_allowed user now).2⟩, false⟩ := by
  simp only [translate_text, ha, htv, hlv, hget, hv, Bool.not_true,
    Bool.not_false, Bool.false_eq_true, if_false, if_true]

theorem translate_text_missNone {st : BotState} {user : ℕ}
    {text lang plang : List Char} {now : ℚ} {up : UpstreamOutcome}
    (ha : (st.rate_limiter.is_allowed user now).1 = true)
    (htv : (validate_text text).1 = true)
    (hlv : validate_language_code lang = .ok plang)
    (hget : (st.cache.get (mkCacheKey text plang) now).1 = none) :
    translate_text st user text lang now up =
      translateMiss
        ⟨(st.cache.get (mkCacheKey text plang) now).2,
         (st.rate_limiter.is_allowed user now).2⟩
        user (mkCacheKey text plang) now up := by
  simp only [translate_text, ha, htv, hlv, hget, Bool.not_true,
    Bool.false_eq_true, if_false]

theorem translate_text_missEmpty {st : BotState} {user : ℕ}
    {text lang plang : List Char} {now : ℚ} {up : UpstreamOutcome}
    {v : List Char}
    (ha : (st.rate_limiter.is_allowed user now).1 = true)
    (htv : (validate_text text).1 = true)
    (hlv : validate_language_code lang = .ok plang)
    (hget : (st.cache.get (mkCacheKey text plang) now).1 = some v)
    (hv : v.isEmpty = true) :
    translate_text st user text lang now up =
      translateMiss
        ⟨(st.cache.get (mkCacheKey text plang) now).2,
         (st.rate_limiter.is_allowed user now).2⟩
        user (mkCacheKey text plang) now up := by
  simp only [translate_text, ha, htv, hlv, hget, hv, Bool.not_true,
    Bool.false_eq_true, if_false]

/-- C1: on a request whose (valid) inputs hit a live, non-empty cache entry,
the rate limit is still checked first — an exhausted identity is rejected as
rate-limited with the cache never consulted; an admitted identity gets the
cached value back, the upstream stays uninvoked, and the final limiter state
is exactly the one left by `is_allowed` (no `add_request` call). -/
theorem C1_rate_check_precedes_cache (st : BotState) (user : ℕ)
    (text lang plang v : List Char) (now : ℚ) (up : UpstreamOutcome)
    (htv : (validate_text text).1 = true)
    (hlv : validate_language_code lang = .ok plang)
    (hget : (st.cache.get (mkCacheKey text plang) now).1 = some v)
    (hv : v.isEmpty = false) :
    ((st.rate_limiter.is_allowed user now).1 = false →
      (translate_text st user text lang now up).result = .rateLimited ∧
      (translate_text st user text lang now up).state.cache = st.cache ∧
      (translate_text st user text lang now up).upstreamCalled = false) ∧
    ((st.rate_limiter.is_allowed user now).1 = true →
      (translate_text st user text lang now up).result = .cachedResult v ∧
      (translate_text st user text lang now up).state.rate_limiter =
        (st.rate_limiter.is_allowed user now).2 ∧
      (translate_text st user text lang now up).upstreamCalled = false) := by
  constructor
  · intro hb
    rw [translate_text_rateLimited hb]
    exact ⟨rfl, rfl, rfl⟩
  · intro ha
    rw [translate_text_hit ha htv hlv hget hv]
    exact ⟨rfl, rfl, rfl⟩

/-- Closed witness for C1: an admitted identity is served the cached value
without the upstream being called. -/
theorem C1_rate_check_precedes_cache_witness :
    (translate_text
      ⟨{ cache := [(mkCacheKey ['h', 'i'] ['f', 'r'], ['s'])],
         timestamps := [(mkCacheKey ['h', 'i'] ['f', 'r'], 0)],
         max_size := 1000, ttl := 3600 },
       RateLimiter.empty 15 60⟩
      7 ['h', 'i'] ['f', 'r'] 1 (.returns none)).result =
      .cachedResult ['s'] ∧
    (translate_text
      ⟨{ cache := [(mkCacheKey ['h', 'i'] ['f', 'r'], ['s'])],
         timestamps := [(mkCacheKey ['h', 'i'] ['f', 'r'], 0)],
         max_size := 1000, ttl := 3600 },
       RateLimiter.empty 15 60⟩
      7 ['h', 'i'] ['f', 'r'] 1 (.returns none)).upstreamCalled = false := by
  have h := (C1_rate_check_precedes_cache
    ⟨{ cache := [(mkCacheKey ['h', 'i'] ['f', 'r'], ['s'])],
       timestamps := [(mkCacheKey ['h', 'i'] ['f', 'r'], 0)],
       max_size := 1000, ttl := 3600 },
     RateLimiter.empty 15 60⟩
    7 ['h', 'i'] ['f', 'r'] ['f', 'r'] ['s'] 1 (.returns none)
    (by decide) (by decide)
    (by norm_num [PerformanceCache.get, cleanup_expired, expiredKeys, keysOf,
      alookup, mkCacheKey])
    rfl).2 rfl
  exact ⟨h.1, h.2.2⟩

/-- C2 counterexample: an identity with exhausted quota sending EMPTY text is
rejected as rate-limited, not as invalid input — so the rate-limit check runs
before (and instead of) validation, and a request that fails validation does
cause `is_allowed` to be evaluated. -/
theorem C2_validation_first_counterexample :
    (translate_text
      ⟨PerformanceCache.empty (List Char) (List Char) 1000 3600,
       ⟨15, 60, [(7, List.replicate 15 0)]⟩⟩
      7 [] ['f', 'r'] 0 (.returns none)).result = .rateLimited ∧
    ∀ m, (translate_text
      ⟨PerformanceCache.empty (List Char) (List Char) 1000 3600,
       ⟨15, 60, [(7, List.replicate 15 0)]⟩⟩
      7 [] ['f', 'r'] 0 (.returns none)).result ≠ .invalidInput m := by
  rw [translate_text_rateLimited
    (by norm_num [RateLimiter.is_allowed, ddGet, alookup, List.replicate])]
  exact ⟨rfl, fun m => by simp⟩

/-- C2 (amended): the gate short-circuits on first failure, but the
rate-limit check comes first: a request failing it is rejected as
rate-limited whatever its text; only an admitted request reaches text
validation and then language-code validation, and either validation failure
returns without touching the cache or the upstream. -/
theorem C2_pipeline_order (st : BotState) (user : ℕ) (text lang : List Char)
    (now : ℚ) (up : UpstreamOutcome) :
    ((st.rate_limiter.is_allowed user now).1 = false →
      (translate_text st user text lang now up).result = .rateLimited ∧
      (translate_text st user text lang now up).upstreamCalled = false ∧
      (translate_text st user text lang now up).state.cache = st.cache) ∧
    ((st.rate_limiter.is_allowed user now).1 = true →
      (validate_text text).1 = false →
      (translate_text st user text lang now up).result =
        .invalidInput ((validate_text text).2.getD "") ∧
      (translate_text st user text lang now up).upstreamCalled = false ∧
      (translate_text st user text lang now up).state.cache = st.cache) ∧
    ((st.rate_limiter.is_allowed user now).1 = true →
      (validate_text text).1 = true →
      ∀ e, validate_language_code lang = .err e →
      (translate_text st user text lang now up).result = .invalidLang e ∧
      (translate_text st user text lang now up).upstreamCalled = false ∧
      (translate_text st user text lang now up).state.cache = st.cache) := by
  refine ⟨fun hb => ?_, fun ha htv => ?_, fun ha htv e hlv => ?_⟩
  · rw [translate_text_rateLimited hb]
    exact ⟨rfl, rfl, rfl⟩
  · rw [translate_text_invalidText ha htv]
    exact ⟨rfl, rfl, rfl⟩
  · rw [translate_text_invalidLang ha htv hlv]
    exact ⟨rfl, rfl, rfl⟩

/-- Closed witness for C2 (amended), at three concrete requests: a
rate-limited one, an admitted one with empty text, and an admitted one with
a malformed language code. -/
theorem C2_pipeline_order_witness :
    (translate_text
      ⟨PerformanceCache.empty (List Char) (List Char) 1000 3600,
       ⟨15, 60, [(7, List.replicate 15 0)]⟩⟩
      7 ['h'] ['f', 'r'] 0 (.returns none)).result = .rateLimited ∧
    (translate_text
      ⟨PerformanceCache.empty (List Char) (List Char) 1000 3600,
       RateLimiter.empty 15 60⟩
      7 [] ['f', 'r'] 0 (.returns none)).result =
      .invalidInput "Text cannot be empty" ∧
    (translate_text
      ⟨PerformanceCache.empty (List Char) (List Char) 1000 3600,
       RateLimiter.empty 15 60⟩
      7 ['h'] ['!'] 0 (.returns none)).result =
      .invalidLang "Language code contains invalid characters" := by
  refine ⟨?_, ?_, ?_⟩
  · exact ((C2_pipeline_order
      ⟨PerformanceCache.empty (List Char) (List Char) 1000 3600,
       ⟨15, 60, [(7, List.replicate 15 0)]⟩⟩
      7 ['h'] ['f', 'r'] 0 (.returns none)).1
      (by norm_num [RateLimiter.is_allowed, ddGet, alookup,
        List.replicate])).1
  · exact ((C2_pipeline_order
      ⟨PerformanceCache.empty (List Char) (List Char) 1000 3600,
       RateLimiter.empty 15 60⟩
      7 [] ['f', 'r'] 0 (.returns none)).2.1 rfl (by decide)).1
  · exact ((C2_pipeline_order
      ⟨PerformanceCache.empty (List Char) (List Char) 1000 3600,
       RateLimiter.empty 15 60⟩
      7 ['h'] ['!'] 0 (.returns none)).2.2 rfl (by decide)
      "Language code contains invalid characters" (by decide)).1

theorem alookup_cleanup_subset {c : PerformanceCache K V} {now : ℚ} {k : K}
    {w : V} (h : alookup (cleanup_expired c now).cache k = some w) :
    alookup c.cache k = some w := by
  rw [alookup_cleanup_cache] at h
  by_cases hq : k ∈ expiredKeys c now
  · rw [if_neg (by simpa using hq)] at h
    exact Option.noConfusion h
  · rwa [if_pos (by simpa using hq)] at h

theorem alookup_get_snd_subset {c : PerformanceCache K V} {key : K} {now : ℚ}
    (hnd : (keysOf c.cache).Nodup) {k : K} {w : V}
    (h : alookup ((c.get key now).2).cache k = some w) :
    alookup c.cache k = some w := by
  have hndc : (keysOf (cleanup_expired c now).cache).Nodup := by
    rw [cleanup_cache]
    exact nodup_keysOf_filter _ hnd
  rcases hm : alookup (cleanup_expired c now).cache key with _ | v
  · rw [get_snd_miss hm] at h
    exact alookup_cleanup_subset h
  · rw [get_snd_hit hm] at h
    have h2 : alookup (aremove (cleanup_expired c now).cache key ++ [(key, v)])
        k = some w := h
    rw [alookup_append] at h2
    by_cases hk : k = key
    · subst hk
      rw [alookup_aremove_self_of_nodup hndc] at h2
      simp only [alookup, if_pos rfl] at h2
      obtain rfl : v = w := Option.some_inj.mp h2
      exact alookup_cleanup_subset hm
    · rw [alookup_aremove_ne hk] at h2
      rcases hcc : alookup (cleanup_expired c now).cache k with _ | u
      · rw [hcc] at h2
        simp only [alookup] at h2
        rw [if_neg (fun he => hk he.symm)] at h2
        exact Option.noConfusion h2
      · rw [hcc] at h2
        obtain rfl : u = w := Option.some_inj.mp h2
        exact alookup_cleanup_subset hcc

theorem translateMiss_error_cache_eq {st : BotState} {user : ℕ}
    {key : List Char} {now : ℚ} {up : UpstreamOutcome}
    (h : (translateMiss st user key now up).result.isError = true) :
    (translateMiss st user key now up).state.cache = st.cache := by
  cases up with
  | timesOut => rfl
  | raisesValueError => rfl
  | raises => rfl
  | returns o =>
    cases o with
    | none => rfl
    | some t =>
      by_cases ht : t.isEmpty
      · simp only [translateMiss, ht, if_true]
      · rcases hs : ({ st with
            rate_limiter := st.rate_limiter.add_request user now } :
              BotState).cache.set key t now with e | c2
        · simp only [translateMiss, ht, Bool.false_eq_true, if_false, hs]
        · exfalso
          simp only [translateMiss, ht, Bool.false_eq_true, if_false, hs,
            GateResult.isError] at h

theorem translateMiss_result_ne {st : BotState} {user : ℕ} {key : List Char}
    {now : ℚ} {up : UpstreamOutcome} :
    (translateMiss st user key now up).result ≠ .rateLimited ∧
    (∀ m, (translateMiss st user key now up).result ≠ .invalidInput m) ∧
    (∀ m, (translateMiss st user key now up).result ≠ .invalidLang m) := by
  cases up with
  | timesOut => exact ⟨by simp [translateMiss], fun m => by simp [translateMiss],
      fun m => by simp [translateMiss]⟩
  | raisesValueError => exact ⟨by simp [translateMiss],
      fun m => by simp [translateMiss], fun m => by simp [translateMiss]⟩
  | raises => exact ⟨by simp [translateMiss], fun m => by simp [translateMiss],
      fun m => by simp [translateMiss]⟩
  | returns o =>
    cases o with
    | none => exact ⟨by simp [translateMiss], fun m => by simp [translateMiss],
        fun m => by simp [translateMiss]⟩
    | some t =>
      by_cases ht : t.isEmpty
      · exact ⟨by simp [translateMiss, ht], fun m => by simp [translateMiss, ht],
          fun m => by simp [translateMiss, ht]⟩
      · rcases hs : ({ st with
            rate_limiter := st.rate_limiter.add_request user now } :
              BotState).cache.set key t now with e | c2
        · exact ⟨by simp [translateMiss, ht, hs],
            fun m => by simp [translateMiss, ht, hs],
            fun m => by simp [translateMiss, ht, hs]⟩
        · exact ⟨by simp [translateMiss, ht, hs],
            fun m => by simp [translateMiss, ht, hs],
            fun m => by simp [translateMiss, ht, hs]⟩

/-- C8: whenever `translate_text` returns an error reply (rate-limited,
invalid input or language, timeout, failed or empty translation, unexpected
exception), no cache entry is created or modified — every key→value binding
present afterwards was already present before — and on the rate-limit and
validation fast paths the upstream is not invoked and the cache is untouched
byte for byte. -/
theorem C8_failures_leave_cache (st : BotState) (user : ℕ)
    (text lang : List Char) (now : ℚ) (up : UpstreamOutcome)
    (hnd : (keysOf st.cache.cache).Nodup) :
    ((translate_text st user text lang now up).result.isError = true →
      ∀ k w,
        alookup (translate_text st user text lang now up).state.cache.cache
          k = some w →
        alookup st.cache.cache k = some w) ∧
    ((translate_text st user text lang now up).result = .rateLimited ∨
     (∃ m, (translate_text st user text lang now up).result =
        .invalidInput m) ∨
     (∃ m, (translate_text st user text lang now up).result =
        .invalidLang m) →
      (translate_text st user text lang now up).upstreamCalled = false ∧
      (translate_text st user text lang now up).state.cache = st.cache) := by
  cases ha : (st.rate_limiter.is_allowed user now).1 with
  | false =>
    rw [translate_text_rateLimited ha]
    exact ⟨fun _ k w h => h, fun _ => ⟨rfl, rfl⟩⟩
  | true =>
    cases htv : (validate_text text).1 with
    | false =>
      rw [translate_text_invalidText ha htv]
      exact ⟨fun _ k w h => h, fun _ => ⟨rfl, rfl⟩⟩
    | true =>
      cases hlv : validate_language_code lang with
      | err e =>
        rw [translate_text_invalidLang ha htv hlv]
        exact ⟨fun _ k w h => h, fun _ => ⟨rfl, rfl⟩⟩
      | ok plang =>
        rcases hget : (st.cache.get (mkCacheKey text plang) now).1 with _ | v
        · rw [translate_text_missNone ha htv hlv hget]
          refine ⟨fun herr k w h => ?_, fun hor => ?_⟩
          · rw [translateMiss_error_cache_eq herr] at h
            exact alookup_get_snd_subset hnd h
          · rcases hor with h | ⟨m, h⟩ | ⟨m, h⟩
            · exact absurd h translateMiss_result_ne.1
            · exact absurd h (translateMiss_result_ne.2.1 m)
            · exact absurd h (translateMiss_result_ne.2.2 m)
        · cases hve : v.isEmpty with
          | false =>
            rw [translate_text_hit ha htv hlv hget hve]
            refine ⟨fun herr => ?_, fun hor => ?_⟩
            · exact absurd herr (by simp [GateResult.isError])
            · rcases hor with h | ⟨m, h⟩ | ⟨m, h⟩ <;> exact GateResult.noConfusion h
          | true =>
            rw [translate_text_missEmpty ha htv hlv hget hve]
            refine ⟨fun herr k w h => ?_, fun hor => ?_⟩
            · rw [translateMiss_error_cache_eq herr] at h
              exact alookup_get_snd_subset hnd h
            · rcases hor with h | ⟨m, h⟩ | ⟨m, h⟩
              · exact absurd h translateMiss_result_ne.1
              · exact absurd h (translateMiss_result_ne.2.1 m)
              · exact absurd h (translateMiss_result_ne.2.2 m)

/-- Closed witness for C8 at a rate-limited request: the upstream is not
invoked and the cache is left exactly as it was. -/
theorem C8_failures_leave_cache_witness :
    (translate_text
      ⟨PerformanceCache.empty (List Char) (List Char) 1000 3600,
       ⟨15, 60, [(7, List.replicate 15 0)]⟩⟩
      7 ['h'] ['f', 'r'] 0 (.returns none)).upstreamCalled = false ∧
    (translate_text
      ⟨PerformanceCache.empty (List Char) (List Char) 1000 3600,
       ⟨15, 60, [(7, List.replicate 15 0)]⟩⟩
      7 ['h'] ['f', 'r'] 0 (.returns none)).state.cache =
      PerformanceCache.empty (List Char) (List Char) 1000 3600 :=
  (C8_failures_leave_cache
    ⟨PerformanceCache.empty (List Char) (List Char) 1000 3600,
     ⟨15, 60, [(7, List.replicate 15 0)]⟩⟩
    7 ['h'] ['f', 'r'] 0 (.returns none) List.nodup_nil).2
    (Or.inl (by
      rw [translate_text_rateLimited
        (by norm_num [RateLimiter.is_allowed, ddGet, alookup, List.replicate])]))

end PremadeBots
